import Mathlib

/-!
Verification of the logarithmic spin-to-qubit mapper
(`qiskit_nature/second_q/mappers/logarithmic_mapper.py`).

The mapper manipulates square complex matrices (dense numpy arrays and
`SparsePauliOp` values; by the Pauli-decomposition contract the latter are
exact representations of the former, so both are modelled at matrix level).
A square matrix is modelled as a dimension together with a total entry
function; all entries that matter live at indices below the dimension.
The entry type is a generic commutative ring, instantiated at `ℚ` for
concrete computations.

Python exceptions raised by the mapper are modelled by `Except MapErr`:
`invalidDimension` for the `ValueError` raised by `_embed_matrix`, and
`emptyReduce` for the `TypeError` raised by `functools.reduce` on an empty
sequence with no initial value.
-/

namespace LogMapper

/-- A square matrix: a dimension and a total entry function.  Only entries
at row/column indices below `dim` are meaningful. -/
structure SqMat (R : Type) where
  dim : ℕ
  f : ℕ → ℕ → R

/-- `np.eye d`: the `d × d` identity matrix. -/
def eyeN (R : Type) [Zero R] [One R] (d : ℕ) : SqMat R :=
  ⟨d, fun i j => if i = j then 1 else 0⟩

/-- Scalar multiple of a matrix (numpy `matrix * scalar` / `scalar * matrix`). -/
def smulMat {R : Type} [CommRing R] (c : R) (A : SqMat R) : SqMat R :=
  ⟨A.dim, fun i j => c * A.f i j⟩

/-- Entrywise sum of two (same-dimension) matrices (`operator.add`). -/
def matAdd {R : Type} [CommRing R] (A B : SqMat R) : SqMat R :=
  ⟨A.dim, fun i j => A.f i j + B.f i j⟩

/-- Matrix product of two (same-dimension) matrices (`@` / operator composition). -/
def matMul {R : Type} [CommRing R] (A B : SqMat R) : SqMat R :=
  ⟨A.dim, fun i j => ((List.range A.dim).map (fun k => A.f i k * B.f k j)).sum⟩

/-- Kronecker / tensor product (`^` on `SparsePauliOp`, i.e. `A.tensor B`,
whose matrix is `kron(A, B)`): `(A ⊗ B)[i, j] = A[i / dB, j / dB] * B[i % dB, j % dB]`. -/
def kron {R : Type} [CommRing R] (A B : SqMat R) : SqMat R :=
  ⟨A.dim * B.dim, fun i j => A.f (i / B.dim) (j / B.dim) * B.f (i % B.dim) (j % B.dim)⟩

/-- Extensional equality of square matrices: same dimension and the same
entries everywhere below that dimension. -/
def MatExt {R : Type} (A B : SqMat R) : Prop :=
  A.dim = B.dim ∧ ∀ i < A.dim, ∀ j < A.dim, A.f i j = B.f i j

instance {R : Type} [DecidableEq R] (A B : SqMat R) : Decidable (MatExt A B) := by
  unfold MatExt; infer_instance

theorem sqMat_eq {R : Type} {A B : SqMat R} (h1 : A.dim = B.dim)
    (h2 : ∀ i j, A.f i j = B.f i j) : A = B := by
  cases A with
  | mk d f =>
    cases B with
    | mk e g =>
      simp only at h1 h2
      subst h1
      have : f = g := funext fun i => funext fun j => h2 i j
      rw [this]

/-- Errors raised by the mapper: the `ValueError` of `_embed_matrix`
(`invalidDimension`) and the `TypeError` of `functools.reduce` applied to an
empty sequence (`emptyReduce`). -/
inductive MapErr where
  | invalidDimension
  | emptyReduce
deriving DecidableEq

/-- The spin axes appearing in a term's factors (`char_map` keys). -/
inductive Axis where
  | X
  | Y
  | Z
deriving DecidableEq

/-- `np.block([[A, 0], [0, B]])`: the block-diagonal matrix with `A` in the
top-left block and `B` in the bottom-right block. -/
def blockDiag {R : Type} [CommRing R] (A B : SqMat R) : SqMat R :=
  ⟨A.dim + B.dim, fun i j =>
    if i < A.dim then (if j < A.dim then A.f i j else 0)
    else (if j < A.dim then 0 else B.f (i - A.dim) (j - A.dim))⟩

/-- `LogarithmicMapper._embed_matrix(matrix, num_qubits)` with configuration
`padding = p` and `embed_upper = u`: computes `dim_diff = 2^num_qubits -
matrix.shape[0]` (a possibly negative integer); when `dim_diff == 0` returns
the matrix unchanged, when `dim_diff > 0` returns the block-diagonal
embedding with the complementary block `np.eye(dim_diff) * padding`, and
otherwise raises `ValueError`. -/
def embedMatrix {R : Type} [CommRing R] (p : R) (u : Bool) (M : SqMat R)
    (numQubitsArg : ℕ) : Except MapErr (SqMat R) :=
  let fullDim : ℕ := 2 ^ numQubitsArg
  let subsDim : ℕ := M.dim
  let dimDiff : ℤ := (fullDim : ℤ) - (subsDim : ℤ)
  if dimDiff = 0 then Except.ok M
  else if 0 < dimDiff then
    Except.ok
      (if u then blockDiag M (smulMat p (eyeN R (fullDim - subsDim)))
       else blockDiag (smulMat p (eyeN R (fullDim - subsDim))) M)
  else Except.error MapErr.invalidDimension

/-- Fuel-driven ceiling base-2 logarithm; `clog2Fuel fuel d` computes
`ceil(log2 d)` whenever `d ≤ fuel` (shown below to agree with `Nat.clog 2`). -/
def clog2Fuel : ℕ → ℕ → ℕ
  | _, 0 => 0
  | 0, _ + 1 => 0
  | fuel + 1, d + 1 => if d + 1 ≤ 1 then 0 else clog2Fuel fuel ((d + 2) / 2) + 1

/-- `int(np.ceil(np.log2(d)))`: the number of qubits used to embed a `d × d`
matrix (the least `n` with `d ≤ 2^n`). -/
def numQubits (d : ℕ) : ℕ := clog2Fuel d d

/-- One step of the accumulation loop of `_map_single`:
`mat[idx] = mat[idx] @ char_map[op] if idx in mat else char_map[op]`. -/
def accumStep {R : Type} [CommRing R] (χ : Axis → SqMat R)
    (m : ℕ → Option (SqMat R)) (fa : Axis × ℕ) : ℕ → Option (SqMat R) :=
  fun k =>
    if k = fa.2 then
      some (match m fa.2 with
            | some A => matMul A (χ fa.1)
            | none => χ fa.1)
    else m k

/-- The accumulation loop of `_map_single` run over a factor list, starting
from a given partial site map. -/
def accumFrom {R : Type} [CommRing R] (χ : Axis → SqMat R)
    (m : ℕ → Option (SqMat R)) (t : List (Axis × ℕ)) : ℕ → Option (SqMat R) :=
  t.foldl (accumStep χ) m

/-- The accumulation loop of `_map_single` started from the empty
`defaultdict`. -/
def accumTerm {R : Type} [CommRing R] (χ : Axis → SqMat R)
    (t : List (Axis × ℕ)) : ℕ → Option (SqMat R) :=
  accumFrom χ (fun _ => none) t

/-- Modelled from the spec: `SpinOp.index_order()` (the spin-operator input
type is outside the mapper module).  Per the spec's ordering contract it
reorders each term's factors by site index while preserving the relative
order of factors that share a site index (composition at a shared site is
order-sensitive and must be preserved).  `insertOrderedByIdx` inserts one
factor into an index-sorted factor list before the first factor of greater
or equal index. -/
def insertOrderedByIdx (x : Axis × ℕ) : List (Axis × ℕ) → List (Axis × ℕ)
  | [] => [x]
  | y :: ys => if x.2 ≤ y.2 then x :: y :: ys else y :: insertOrderedByIdx x ys

/-- Modelled from the spec: the factor list of one term after
`SpinOp.index_order()` — a stable insertion sort by site index. -/
def indexOrderTerm (t : List (Axis × ℕ)) : List (Axis × ℕ) :=
  t.foldr insertOrderedByIdx []

/-- The four encoded single-site operators `(spinx, spiny, spinz, identity)`
returned by `_logarithmic_encoding`. -/
abbrev Encoding (R : Type) := SqMat R × SqMat R × SqMat R × SqMat R

/-- `char_map = {"X": spinx, "Y": spiny, "Z": spinz}`. -/
def charMap {R : Type} (enc : Encoding R) : Axis → SqMat R
  | Axis.X => enc.1
  | Axis.Y => enc.2.1
  | Axis.Z => enc.2.2.1

/-- The encoded identity operator of an encoding tuple. -/
def encId {R : Type} (enc : Encoding R) : SqMat R := enc.2.2.2

/-- `functools.reduce(g, l)` with no initial value: raises (`emptyReduce`)
on an empty list, otherwise folds `g` from the left starting at the head. -/
def reduceOp {α : Type} (g : α → α → α) : List α → Except MapErr α
  | [] => Except.error MapErr.emptyReduce
  | a :: l => Except.ok (l.foldl g a)

/-- The body of the `for terms, coeff in ordered_op.terms()` loop of
`_map_single` for one term: accumulate the per-site operators over the
index-ordered factor list, fill untouched sites with the encoded identity,
tensor the per-site operator list in reverse order
(`reduce(operator.xor, reversed(operatorlist))`) and scale by the
coefficient. -/
def mapTerm {R : Type} [CommRing R] (enc : Encoding R) (registerLength : ℕ)
    (tc : List (Axis × ℕ) × R) : Except MapErr (SqMat R) :=
  let mat := accumTerm (charMap enc) (indexOrderTerm tc.1)
  let operatorlist := (List.range registerLength).map
    (fun i => (mat i).getD (encId enc))
  (reduceOp kron operatorlist.reverse).map (smulMat tc.2)

/-- Builds `qubit_ops_list`: the per-term operators in term order, failing
as soon as any term fails. -/
def mapTermsList {R : Type} [CommRing R] (enc : Encoding R)
    (registerLength : ℕ) : List (List (Axis × ℕ) × R) →
    Except MapErr (List (SqMat R))
  | [] => Except.ok []
  | tc :: rest =>
    match mapTerm enc registerLength tc, mapTermsList enc registerLength rest with
    | Except.ok A, Except.ok l => Except.ok (A :: l)
    | Except.error e, _ => Except.error e
    | _, Except.error e => Except.error e

/-- The term loop and final sum of `_map_single`, given the four encoded
operators: `qubit_op = reduce(operator.add, qubit_ops_list)`. -/
def mapWithEncoding {R : Type} [CommRing R] (enc : Encoding R)
    (registerLength : ℕ) (terms : List (List (Axis × ℕ) × R)) :
    Except MapErr (SqMat R) :=
  match mapTermsList enc registerLength terms with
  | Except.ok l => reduceOp matAdd l
  | Except.error e => Except.error e

/-- A provider of the three dense spin matrices `SpinOp.x(spin).to_matrix()`,
`SpinOp.y(spin).to_matrix()`, `SpinOp.z(spin).to_matrix()`, indexed by
`twoS` (twice the spin, so that a half-integer spin is exact).  The spec
treats the spin-algebra primitive as an external collaborator, so the
provider is a parameter of the encoding. -/
abbrev SpinMats (R : Type) := ℕ → SqMat R × SqMat R × SqMat R

/-- `LogarithmicMapper._logarithmic_encoding(spin)` with configuration
`padding = p`, `embed_upper = u`, and the spin-matrix primitive `sm`:
`dspin = int(2 * spin + 1)` (for spin `twoS / 2` this is `twoS + 1`),
`num_qubits = int(np.ceil(np.log2(dspin)))`; embeds the three spin matrices
and `np.eye(dspin)` into `2^num_qubits` and returns the four results (the
subsequent `SparsePauliOp.from_operator` + `chop` decomposition is an exact
change of representation, so the encoding is modelled by the embedded
matrices themselves). -/
def logarithmicEncoding {R : Type} [CommRing R] (p : R) (u : Bool)
    (sm : SpinMats R) (twoS : ℕ) : Except MapErr (Encoding R) :=
  let dspin : ℕ := twoS + 1
  let n : ℕ := numQubits dspin
  match embedMatrix p u (sm twoS).1 n, embedMatrix p u (sm twoS).2.1 n,
      embedMatrix p u (sm twoS).2.2 n, embedMatrix p u (eyeN R dspin) n with
  | Except.ok a, Except.ok b, Except.ok c, Except.ok d => Except.ok (a, b, c, d)
  | Except.error e, _, _, _ => Except.error e
  | _, Except.error e, _, _ => Except.error e
  | _, _, Except.error e, _ => Except.error e
  | _, _, _, Except.error e => Except.error e

/-- `LogarithmicMapper._map_single(second_q_op, register_length)` for an
operator with spin `twoS / 2` and term list `terms`: compute the
logarithmic encoding, then run the term loop and final sum. -/
def mapSingle {R : Type} [CommRing R] (p : R) (u : Bool) (sm : SpinMats R)
    (twoS registerLength : ℕ) (terms : List (List (Axis × ℕ) × R)) :
    Except MapErr (SqMat R) :=
  match logarithmicEncoding p u sm twoS with
  | Except.ok enc => mapWithEncoding enc registerLength terms
  | Except.error e => Except.error e

/-- The spin-1/2 X spin matrix `[[0, 1/2], [1/2, 0]]` (the matrix of
`SpinOp.x(1/2)`), which is rational-valued. -/
def sxHalf : SqMat ℚ :=
  ⟨2, fun i j =>
    if i = 0 ∧ j = 1 then 1 / 2 else if i = 1 ∧ j = 0 then 1 / 2 else 0⟩

/-- The spin-1/2 Z spin matrix `[[1/2, 0], [0, -1/2]]` (the matrix of
`SpinOp.z(1/2)`), which is rational-valued. -/
def szHalf : SqMat ℚ :=
  ⟨2, fun i j =>
    if i = 0 ∧ j = 0 then 1 / 2 else if i = 1 ∧ j = 1 then -(1 / 2) else 0⟩

/-- A dimension-correct stand-in for the spin-1/2 Y spin matrix (whose true
entries are purely imaginary and play no role in any rational-arithmetic
instance below: only its dimension is ever used). -/
def syStandIn : SqMat ℚ := ⟨2, fun _ _ => 0⟩

/-- A sample spin-matrix provider over `ℚ`, correct for `twoS = 1`
(spin 1/2): the true X and Z spin matrices and a dimension-correct Y
stand-in. -/
def demoSpinMats : SpinMats ℚ := fun _ => (sxHalf, syStandIn, szHalf)

/-! ### Projection lemmas -/

@[simp] theorem eyeN_dim {R : Type} [Zero R] [One R] (d : ℕ) :
    (eyeN R d).dim = d := rfl

@[simp] theorem smulMat_dim {R : Type} [CommRing R] (c : R) (A : SqMat R) :
    (smulMat c A).dim = A.dim := rfl

@[simp] theorem matAdd_dim {R : Type} [CommRing R] (A B : SqMat R) :
    (matAdd A B).dim = A.dim := rfl

@[simp] theorem matMul_dim {R : Type} [CommRing R] (A B : SqMat R) :
    (matMul A B).dim = A.dim := rfl

@[simp] theorem kron_dim {R : Type} [CommRing R] (A B : SqMat R) :
    (kron A B).dim = A.dim * B.dim := rfl

@[simp] theorem blockDiag_dim {R : Type} [CommRing R] (A B : SqMat R) :
    (blockDiag A B).dim = A.dim + B.dim := rfl

theorem smulMat_one {R : Type} [CommRing R] (A : SqMat R) :
    smulMat (1 : R) A = A := by
  refine sqMat_eq rfl ?_
  intro i j
  exact one_mul _

/-! ### The qubit count agrees with the ceiling base-2 logarithm -/

theorem clog2Fuel_eq_clog : ∀ fuel d : ℕ, d ≤ fuel → clog2Fuel fuel d = Nat.clog 2 d := by
  intro fuel
  induction fuel with
  | zero =>
    intro d hd
    interval_cases d
    simp [clog2Fuel]
  | succ fuel ih =>
    intro d hd
    match d with
    | 0 => simp [clog2Fuel]
    | 1 =>
      rw [clog2Fuel, if_pos (by omega), Nat.clog_of_right_le_one le_rfl]
    | e + 2 =>
      have hrhs : Nat.clog 2 (e + 2) = Nat.clog 2 ((e + 3) / 2) + 1 := by
        rw [Nat.clog_of_two_le (by norm_num) (by omega)]
        have h23 : e + 2 + 2 - 1 = e + 3 := by omega
        rw [h23]
      rw [clog2Fuel, if_neg (by omega), ih ((e + 3) / 2) (by omega), hrhs]

theorem numQubits_eq_clog (d : ℕ) : numQubits d = Nat.clog 2 d :=
  clog2Fuel_eq_clog d d le_rfl

theorem le_pow_numQubits (d : ℕ) : d ≤ 2 ^ numQubits d := by
  rw [numQubits_eq_clog]
  exact Nat.le_pow_clog one_lt_two d

theorem numQubits_min {d m : ℕ} (h : d ≤ 2 ^ m) : numQubits d ≤ m := by
  rw [numQubits_eq_clog]
  exact (Nat.le_pow_iff_clog_le one_lt_two).mp h

/-! ### Branch lemmas for `embedMatrix` -/

theorem embed_of_dim_eq {R : Type} [CommRing R] (p : R) (u : Bool)
    (M : SqMat R) (n : ℕ) (h : M.dim = 2 ^ n) :
    embedMatrix p u M n = Except.ok M := by
  rw [embedMatrix]
  set F := 2 ^ n with hF
  clear_value F
  split_ifs with h1 h2 h3 <;> first | rfl | (exfalso; omega) | simp_all

theorem embed_upper_of_lt {R : Type} [CommRing R] (p : R) (M : SqMat R)
    (n : ℕ) (h : M.dim < 2 ^ n) :
    embedMatrix p true M n =
      Except.ok (blockDiag M (smulMat p (eyeN R (2 ^ n - M.dim)))) := by
  rw [embedMatrix]
  set F := 2 ^ n with hF
  clear_value F
  split_ifs with h1 h2 h3 <;> first | rfl | (exfalso; omega) | simp_all

theorem embed_lower_of_lt {R : Type} [CommRing R] (p : R) (M : SqMat R)
    (n : ℕ) (h : M.dim < 2 ^ n) :
    embedMatrix p false M n =
      Except.ok (blockDiag (smulMat p (eyeN R (2 ^ n - M.dim))) M) := by
  rw [embedMatrix]
  set F := 2 ^ n with hF
  clear_value F
  split_ifs with h1 h2 h3 <;> first | rfl | (exfalso; omega) | simp_all

theorem embed_error_of_gt {R : Type} [CommRing R] (p : R) (u : Bool)
    (M : SqMat R) (n : ℕ) (h : 2 ^ n < M.dim) :
    embedMatrix p u M n = Except.error MapErr.invalidDimension := by
  rw [embedMatrix]
  set F := 2 ^ n with hF
  clear_value F
  split_ifs with h1 h2 h3 <;> first | rfl | (exfalso; omega) | simp_all

theorem embed_ok_of_le {R : Type} [CommRing R] (p : R) (u : Bool)
    (M : SqMat R) (n : ℕ) (h : M.dim ≤ 2 ^ n) :
    ∃ E, embedMatrix p u M n = Except.ok E ∧ E.dim = 2 ^ n := by
  rcases Nat.lt_or_ge M.dim (2 ^ n) with hlt | hge
  · cases u
    · refine ⟨_, embed_lower_of_lt p M n hlt, ?_⟩
      simp
      omega
    · refine ⟨_, embed_upper_of_lt p M n hlt, ?_⟩
      simp
      omega
  · have hdim : M.dim = 2 ^ n := le_antisymm h hge
    exact ⟨M, embed_of_dim_eq p u M n hdim, hdim⟩

/-- The block-diagonal matrix assembled from two identity blocks is an
identity matrix. -/
theorem blockDiag_eye_eye {R : Type} [CommRing R] (a b : ℕ) :
    blockDiag (eyeN R a) (eyeN R b) = eyeN R (a + b) := by
  refine sqMat_eq rfl ?_
  intro i j
  simp only [blockDiag, eyeN, eyeN_dim]
  by_cases hij : i = j
  · subst hij
    by_cases h1 : i < a <;> simp [h1]
  · rw [if_neg hij]
    by_cases h1 : i < a <;> by_cases h2 : j < a
    · rw [if_pos h1, if_pos h2]
    · rw [if_pos h1, if_neg h2]
    · rw [if_neg h1, if_pos h2]
    · rw [if_neg h1, if_neg h2, if_neg (show ¬(i - a = j - a) by omega)]

/-- With padding `1`, embedding an identity matrix yields exactly the
identity matrix of the full dimension. -/
theorem embed_eye_one {R : Type} [CommRing R] (u : Bool) (d n : ℕ)
    (h : d ≤ 2 ^ n) :
    embedMatrix (1 : R) u (eyeN R d) n = Except.ok (eyeN R (2 ^ n)) := by
  rcases Nat.lt_or_ge d (2 ^ n) with hlt | hge
  · have hsum : d + (2 ^ n - d) = 2 ^ n := by omega
    have hsum2 : (2 ^ n - d) + d = 2 ^ n := by omega
    cases u
    · rw [embed_lower_of_lt (1 : R) (eyeN R d) n hlt]
      rw [eyeN_dim, smulMat_one, blockDiag_eye_eye, hsum2]
    · rw [embed_upper_of_lt (1 : R) (eyeN R d) n hlt]
      rw [eyeN_dim, smulMat_one, blockDiag_eye_eye, hsum]
  · have hd2 : d = 2 ^ n := le_antisymm h hge
    rw [embed_of_dim_eq (1 : R) u (eyeN R d) n (by rw [eyeN_dim, hd2]), hd2]

/-! ### Kronecker products of identities -/

theorem kron_eye_eye {R : Type} [CommRing R] (a b : ℕ) :
    kron (eyeN R a) (eyeN R b) = eyeN R (a * b) := by
  refine sqMat_eq rfl ?_
  intro i j
  simp only [kron, eyeN, eyeN_dim]
  by_cases hij : i = j
  · subst hij
    simp
  · rw [if_neg hij]
    by_cases hd : i / b = j / b
    · by_cases hm : i % b = j % b
      · exfalso
        have hi := Nat.div_add_mod i b
        have hj := Nat.div_add_mod j b
        rw [hd, hm] at hi
        exact hij (hi.symm.trans hj)
      · rw [if_neg hm, mul_zero]
    · rw [if_neg hd, zero_mul]

theorem foldl_kron_replicate {R : Type} [CommRing R] (m : ℕ) :
    ∀ (k t : ℕ),
      List.foldl kron (eyeN R t) (List.replicate k (eyeN R m)) =
        eyeN R (t * m ^ k) := by
  intro k
  induction k with
  | zero => intro t; simp
  | succ k ih =>
    intro t
    rw [List.replicate_succ, List.foldl_cons, kron_eye_eye t m, ih (t * m)]
    have : t * m * m ^ k = t * m ^ (k + 1) := by ring
    rw [this]

/-! ### Key locality of the per-term accumulation -/

theorem accumFrom_congr_at {R : Type} [CommRing R] (χ : Axis → SqMat R)
    (k : ℕ) :
    ∀ (t : List (Axis × ℕ)) (m mm : ℕ → Option (SqMat R)), m k = mm k →
      accumFrom χ m t k = accumFrom χ mm t k := by
  intro t
  induction t with
  | nil => intro m mm h; exact h
  | cons a t ih =>
    intro m mm h
    simp only [accumFrom, List.foldl_cons]
    refine ih (accumStep χ m a) (accumStep χ mm a) ?_
    rw [accumStep, accumStep]
    by_cases hk : k = a.2
    · rw [if_pos hk, if_pos hk, ← hk, h]
    · rw [if_neg hk, if_neg hk]
      exact h

theorem accumFrom_filter_key {R : Type} [CommRing R] (χ : Axis → SqMat R)
    (k : ℕ) :
    ∀ (t : List (Axis × ℕ)) (m : ℕ → Option (SqMat R)),
      accumFrom χ m t k = accumFrom χ m (t.filter (fun fa => fa.2 = k)) k := by
  intro t
  induction t with
  | nil => intro m; rfl
  | cons a t ih =>
    intro m
    by_cases ha : a.2 = k
    · rw [List.filter_cons_of_pos (by simpa using ha)]
      rw [accumFrom, List.foldl_cons, accumFrom, List.foldl_cons]
      exact ih (accumStep χ m a)
    · rw [List.filter_cons_of_neg (by simpa using ha)]
      rw [accumFrom, List.foldl_cons, ← accumFrom]
      rw [accumFrom_congr_at χ k t (accumStep χ m a) m
        (by rw [accumStep, if_neg (fun hc => ha hc.symm)])]
      exact ih m

/-! ### Stability of the modelled `index_order` -/

theorem insertOrdered_filter_key (k : ℕ) (x : Axis × ℕ) :
    ∀ L : List (Axis × ℕ),
      (insertOrderedByIdx x L).filter (fun fa => fa.2 = k) =
        if x.2 = k then x :: L.filter (fun fa => fa.2 = k)
        else L.filter (fun fa => fa.2 = k) := by
  intro L
  induction L with
  | nil =>
    rw [insertOrderedByIdx]
    by_cases hx : x.2 = k
    · rw [if_pos hx, List.filter_cons_of_pos (by simpa using hx)]
    · rw [if_neg hx, List.filter_cons_of_neg (by simpa using hx)]
  | cons y ys ih =>
    rw [insertOrderedByIdx]
    by_cases hxy : x.2 ≤ y.2
    · rw [if_pos hxy]
      by_cases hx : x.2 = k
      · rw [List.filter_cons_of_pos (by simpa using hx), if_pos hx]
      · rw [List.filter_cons_of_neg (by simpa using hx), if_neg hx]
    · rw [if_neg hxy]
      by_cases hy : y.2 = k
      · have hx : ¬x.2 = k := by omega
        rw [List.filter_cons_of_pos (by simpa using hy), ih, if_neg hx, if_neg hx,
          List.filter_cons_of_pos (by simpa using hy)]
      · rw [List.filter_cons_of_neg (by simpa using hy), ih,
          List.filter_cons_of_neg (by simpa using hy)]

theorem indexOrder_filter_key (k : ℕ) :
    ∀ t : List (Axis × ℕ),
      (indexOrderTerm t).filter (fun fa => fa.2 = k) =
        t.filter (fun fa => fa.2 = k) := by
  intro t
  induction t with
  | nil => rfl
  | cons a t ih =>
    show (insertOrderedByIdx a (indexOrderTerm t)).filter (fun fa => fa.2 = k) = _
    rw [insertOrdered_filter_key k a (indexOrderTerm t), ih]
    by_cases ha : a.2 = k
    · rw [if_pos ha, List.filter_cons_of_pos (by simpa using ha)]
    · rw [if_neg ha, List.filter_cons_of_neg (by simpa using ha)]

/-- The accumulated operator at any site is unchanged by the (modelled)
`index_order` normalization: the sort is stable, so the subsequence of
factors at each site index is preserved. -/
theorem accumTerm_indexOrder {R : Type} [CommRing R] (χ : Axis → SqMat R)
    (t : List (Axis × ℕ)) (k : ℕ) :
    accumTerm χ (indexOrderTerm t) k = accumTerm χ t k := by
  rw [accumTerm, accumTerm, accumFrom_filter_key χ k (indexOrderTerm t),
    accumFrom_filter_key χ k t, indexOrder_filter_key k t]

/-- The accumulated operator at an in-range site is unchanged by dropping
all out-of-range factors. -/
theorem accumTerm_filter_inRange {R : Type} [CommRing R] (χ : Axis → SqMat R)
    (t : List (Axis × ℕ)) (registerLength k : ℕ) (hk : k < registerLength) :
    accumTerm χ (t.filter (fun fa => fa.2 < registerLength)) k =
      accumTerm χ t k := by
  rw [accumTerm, accumTerm,
    accumFrom_filter_key χ k (t.filter (fun fa => fa.2 < registerLength)),
    accumFrom_filter_key χ k t, List.filter_filter]
  congr 1
  apply List.filter_congr
  intro a _
  by_cases ha : a.2 = k
  · simp [ha, hk]
  · simp [ha]

/-! ### Sums of per-term operators -/

theorem matAdd_assoc {R : Type} [CommRing R] (A B C : SqMat R) :
    matAdd (matAdd A B) C = matAdd A (matAdd B C) := by
  refine sqMat_eq rfl ?_
  intro i j
  exact add_assoc _ _ _

theorem foldl_matAdd_assoc {R : Type} [CommRing R] :
    ∀ (t : List (SqMat R)) (x y : SqMat R),
      List.foldl matAdd (matAdd x y) t = matAdd x (List.foldl matAdd y t) := by
  intro t
  induction t with
  | nil => intro x y; rfl
  | cons z t ih =>
    intro x y
    rw [List.foldl_cons, List.foldl_cons, matAdd_assoc, ih]

theorem reduceOp_matAdd_append {R : Type} [CommRing R]
    {L1 L2 : List (SqMat R)} {A B : SqMat R}
    (h1 : reduceOp matAdd L1 = Except.ok A)
    (h2 : reduceOp matAdd L2 = Except.ok B) :
    reduceOp matAdd (L1 ++ L2) = Except.ok (matAdd A B) := by
  match L1 with
  | [] => exact absurd h1 (by rw [reduceOp]; intro hc; cases hc)
  | a :: t1 =>
    match L2 with
    | [] => exact absurd h2 (by rw [reduceOp]; intro hc; cases hc)
    | b :: t2 =>
      rw [reduceOp] at h1 h2
      have hA : List.foldl matAdd a t1 = A := by injection h1
      have hB : List.foldl matAdd b t2 = B := by injection h2
      show reduceOp matAdd (a :: (t1 ++ b :: t2)) = _
      rw [reduceOp, List.foldl_append, hA, List.foldl_cons, foldl_matAdd_assoc, hB]

theorem mapTermsList_append {R : Type} [CommRing R] (enc : Encoding R)
    (registerLength : ℕ) :
    ∀ (l1 l2 : List (List (Axis × ℕ) × R)) (L1 L2 : List (SqMat R)),
      mapTermsList enc registerLength l1 = Except.ok L1 →
      mapTermsList enc registerLength l2 = Except.ok L2 →
      mapTermsList enc registerLength (l1 ++ l2) = Except.ok (L1 ++ L2) := by
  intro l1
  induction l1 with
  | nil =>
    intro l2 L1 L2 h1 h2
    rw [mapTermsList] at h1
    have : L1 = [] := by injection h1 with h; exact h.symm
    subst this
    simpa using h2
  | cons tc l1 ih =>
    intro l2 L1 L2 h1 h2
    rw [mapTermsList] at h1
    rw [List.cons_append, mapTermsList]
    cases hA : mapTerm enc registerLength tc with
    | error e =>
      rw [hA] at h1
      cases hL : mapTermsList enc registerLength l1 with
      | error e2 => rw [hL] at h1; exact Except.noConfusion h1
      | ok L => rw [hL] at h1; exact Except.noConfusion h1
    | ok A =>
      rw [hA] at h1
      cases hL : mapTermsList enc registerLength l1 with
      | error e2 => rw [hL] at h1; exact Except.noConfusion h1
      | ok L =>
        rw [hL] at h1
        have h1e : Except.ok (A :: L) = Except.ok L1 := h1
        have hL1 : L1 = A :: L := by injection h1e with h; exact h.symm
        subst hL1
        rw [ih l2 L L2 hL h2]
        rfl

/-! ### Per-term helper lemmas -/

theorem range_map_const {α : Type} (x : α) :
    ∀ n : ℕ, (List.range n).map (fun _ => x) = List.replicate n x := by
  intro n
  induction n with
  | zero => rfl
  | succ n ih =>
    rw [List.range_succ, List.map_append, ih, List.replicate_succ']
    rfl

/-- A term with an empty factor list fills every site with the encoded
identity. -/
theorem mapTerm_scalar {R : Type} [CommRing R] (enc : Encoding R)
    (registerLength : ℕ) (c : R) :
    mapTerm enc registerLength ([], c) =
      (reduceOp kron (List.replicate registerLength (encId enc))).map
        (smulMat c) := by
  rw [mapTerm]
  have hop : (List.range registerLength).map
      (fun i => ((accumTerm (charMap enc) (indexOrderTerm [])) i).getD (encId enc)) =
      List.replicate registerLength (encId enc) :=
    range_map_const (encId enc) registerLength
  rw [hop, List.reverse_replicate]

theorem mapWithEncoding_scalar {R : Type} [CommRing R] (enc : Encoding R)
    (k : ℕ) (c : R) :
    mapWithEncoding enc (k + 1) [([], c)] =
      Except.ok (smulMat c
        (List.foldl kron (encId enc) (List.replicate k (encId enc)))) := by
  have hterm : mapTerm enc (k + 1) ([], c) =
      Except.ok (smulMat c
        (List.foldl kron (encId enc) (List.replicate k (encId enc)))) := by
    rw [mapTerm_scalar]
    rfl
  rw [mapWithEncoding, mapTermsList, hterm]
  rfl

/-- Dropping the out-of-range factors of a term does not change its mapped
operator: the accumulated entries at out-of-range site indices are never
read back. -/
theorem mapTerm_filter {R : Type} [CommRing R] (enc : Encoding R)
    (registerLength : ℕ) (tc : List (Axis × ℕ) × R) :
    mapTerm enc registerLength
        (tc.1.filter (fun fa => fa.2 < registerLength), tc.2) =
      mapTerm enc registerLength tc := by
  rw [mapTerm, mapTerm]
  have hop : (List.range registerLength).map
      (fun i => ((accumTerm (charMap enc)
        (indexOrderTerm (tc.1.filter (fun fa => fa.2 < registerLength)))) i).getD
          (encId enc)) =
      (List.range registerLength).map
      (fun i => ((accumTerm (charMap enc) (indexOrderTerm tc.1)) i).getD
        (encId enc)) := by
    apply List.map_congr_left
    intro i hi
    have hiR : i < registerLength := List.mem_range.mp hi
    rw [accumTerm_indexOrder, accumTerm_indexOrder,
      accumTerm_filter_inRange (charMap enc) tc.1 registerLength i hiR]
  rw [hop]

/-- `_map_single` reduced past a successful encoding step. -/
theorem mapSingle_of_encoding {R : Type} [CommRing R] {p : R} {u : Bool}
    {sm : SpinMats R} {twoS : ℕ} {enc : Encoding R}
    (henc : logarithmicEncoding p u sm twoS = Except.ok enc)
    (registerLength : ℕ) (terms : List (List (Axis × ℕ) × R)) :
    mapSingle p u sm twoS registerLength terms =
      mapWithEncoding enc registerLength terms := by
  rw [mapSingle, henc]

/-! ### Entry-level block lemmas -/

theorem blockDiag_f_tl {R : Type} [CommRing R] (A B : SqMat R) (i j : ℕ)
    (hi : i < A.dim) (hj : j < A.dim) : (blockDiag A B).f i j = A.f i j := by
  simp only [blockDiag]
  rw [if_pos hi, if_pos hj]

theorem blockDiag_f_br {R : Type} [CommRing R] (A B : SqMat R) (i j : ℕ)
    (hi : A.dim ≤ i) (hj : A.dim ≤ j) :
    (blockDiag A B).f i j = B.f (i - A.dim) (j - A.dim) := by
  simp only [blockDiag]
  rw [if_neg (by omega), if_neg (by omega)]

theorem blockDiag_f_off {R : Type} [CommRing R] (A B : SqMat R) (i j : ℕ)
    (h : (i < A.dim ∧ A.dim ≤ j) ∨ (A.dim ≤ i ∧ j < A.dim)) :
    (blockDiag A B).f i j = 0 := by
  simp only [blockDiag]
  rcases h with ⟨hi, hj⟩ | ⟨hi, hj⟩
  · rw [if_pos hi, if_neg (by omega)]
  · rw [if_neg (by omega), if_pos hj]

theorem smul_eye_f {R : Type} [CommRing R] (p : R) (m a b : ℕ) :
    (smulMat p (eyeN R m)).f a b = if a = b then p else 0 := by
  simp only [smulMat, eyeN]
  by_cases h : a = b
  · rw [if_pos h, if_pos h, mul_one]
  · rw [if_neg h, if_neg h, mul_zero]

/-! ### A sample matrix for witnesses -/

/-- A sample `3 × 3` rational matrix with pairwise distinct entries. -/
def testMat3 : SqMat ℚ := ⟨3, fun i j => (i : ℚ) + 3 * (j : ℚ)⟩

/-! ## The claims -/

/-- C1: for every `d × d` matrix `M` and qubit count `n` with
`diff = 2^n - d > 0`, `_embed_matrix` returns a `2^n × 2^n` block-diagonal
matrix: with `embed_upper = true`, `M` occupies the top-left `d × d` block
and `padding · I_diff` the bottom-right block, with off-diagonal blocks
exactly zero; with `embed_upper = false` the two diagonal blocks are
swapped. -/
theorem claim1_block_structure {R : Type} [CommRing R] (p : R) (M : SqMat R)
    (n : ℕ) (h : M.dim < 2 ^ n) :
    ∃ Eu El,
      embedMatrix p true M n = Except.ok Eu ∧
      embedMatrix p false M n = Except.ok El ∧
      Eu.dim = 2 ^ n ∧ El.dim = 2 ^ n ∧
      (∀ i j, i < M.dim → j < M.dim → Eu.f i j = M.f i j) ∧
      (∀ i j, M.dim ≤ i → i < 2 ^ n → M.dim ≤ j → j < 2 ^ n →
        Eu.f i j = if i = j then p else 0) ∧
      (∀ i j, i < 2 ^ n → j < 2 ^ n →
        (i < M.dim ∧ M.dim ≤ j) ∨ (M.dim ≤ i ∧ j < M.dim) → Eu.f i j = 0) ∧
      (∀ i j, 2 ^ n - M.dim ≤ i → i < 2 ^ n → 2 ^ n - M.dim ≤ j → j < 2 ^ n →
        El.f i j = M.f (i - (2 ^ n - M.dim)) (j - (2 ^ n - M.dim))) ∧
      (∀ i j, i < 2 ^ n - M.dim → j < 2 ^ n - M.dim →
        El.f i j = if i = j then p else 0) ∧
      (∀ i j, i < 2 ^ n → j < 2 ^ n →
        (i < 2 ^ n - M.dim ∧ 2 ^ n - M.dim ≤ j) ∨
          (2 ^ n - M.dim ≤ i ∧ j < 2 ^ n - M.dim) → El.f i j = 0) := by
  refine ⟨blockDiag M (smulMat p (eyeN R (2 ^ n - M.dim))),
    blockDiag (smulMat p (eyeN R (2 ^ n - M.dim))) M,
    embed_upper_of_lt p M n h, embed_lower_of_lt p M n h,
    by simp; omega, by simp; omega, ?_, ?_, ?_, ?_, ?_, ?_⟩
  · intro i j hi hj
    exact blockDiag_f_tl M _ i j hi hj
  · intro i j hi hi2 hj hj2
    rw [blockDiag_f_br M _ i j hi hj, smul_eye_f]
    exact if_congr (by omega) rfl rfl
  · intro i j hi hj hoff
    exact blockDiag_f_off M _ i j hoff
  · intro i j hi hi2 hj hj2
    rw [blockDiag_f_br _ M i j (by simpa using hi) (by simpa using hj)]
    simp
  · intro i j hi hj
    rw [blockDiag_f_tl _ M i j (by simpa using hi) (by simpa using hj), smul_eye_f]
  · intro i j hi hj hoff
    refine blockDiag_f_off _ M i j ?_
    simpa using hoff

/-- Witness for C1 at `M = testMat3` (`d = 3`), `n = 2`, `p = 7`. -/
theorem claim1_witness :
    testMat3.dim < 2 ^ 2 ∧
    (∃ Eu El,
      embedMatrix (7 : ℚ) true testMat3 2 = Except.ok Eu ∧
      embedMatrix (7 : ℚ) false testMat3 2 = Except.ok El ∧
      Eu.dim = 2 ^ 2 ∧ El.dim = 2 ^ 2 ∧
      (∀ i j, i < testMat3.dim → j < testMat3.dim → Eu.f i j = testMat3.f i j) ∧
      (∀ i j, testMat3.dim ≤ i → i < 2 ^ 2 → testMat3.dim ≤ j → j < 2 ^ 2 →
        Eu.f i j = if i = j then (7 : ℚ) else 0) ∧
      (∀ i j, i < 2 ^ 2 → j < 2 ^ 2 →
        (i < testMat3.dim ∧ testMat3.dim ≤ j) ∨
          (testMat3.dim ≤ i ∧ j < testMat3.dim) → Eu.f i j = 0) ∧
      (∀ i j, 2 ^ 2 - testMat3.dim ≤ i → i < 2 ^ 2 →
        2 ^ 2 - testMat3.dim ≤ j → j < 2 ^ 2 →
        El.f i j = testMat3.f (i - (2 ^ 2 - testMat3.dim))
          (j - (2 ^ 2 - testMat3.dim))) ∧
      (∀ i j, i < 2 ^ 2 - testMat3.dim → j < 2 ^ 2 - testMat3.dim →
        El.f i j = if i = j then (7 : ℚ) else 0) ∧
      (∀ i j, i < 2 ^ 2 → j < 2 ^ 2 →
        (i < 2 ^ 2 - testMat3.dim ∧ 2 ^ 2 - testMat3.dim ≤ j) ∨
          (2 ^ 2 - testMat3.dim ≤ i ∧ j < 2 ^ 2 - testMat3.dim) →
          El.f i j = 0)) :=
  ⟨by decide, claim1_block_structure (7 : ℚ) testMat3 2 (by decide)⟩

/-- C2: for a term with two factors at the same site in order
`[(X, 0), (Z, 0)]`, the accumulated single-site operator equals
`X̃ @ Z̃` (later factors post-multiply earlier ones), and not `Z̃ @ X̃` —
at spin 1/2 the two products differ; this holds even though the factor
list is first normalized by the (stable) `index_order` sort. -/
theorem claim2_composition_order {R : Type} [CommRing R]
    (χ : Axis → SqMat R) :
    accumTerm χ (indexOrderTerm [(Axis.X, 0), (Axis.Z, 0)]) 0 =
      some (matMul (χ Axis.X) (χ Axis.Z)) ∧
    logarithmicEncoding (1 : ℚ) true demoSpinMats 1 =
      Except.ok (sxHalf, syStandIn, szHalf, eyeN ℚ 2) ∧
    ¬ MatExt (matMul sxHalf szHalf) (matMul szHalf sxHalf) := by
  refine ⟨rfl, rfl, ?_⟩
  intro h
  have h01 := h.2 0 (by norm_num [matMul, sxHalf]) 1 (by norm_num [matMul, sxHalf])
  norm_num [matMul, sxHalf, szHalf, List.range_succ] at h01

/-- Counterexample to C3: a factor at site index `5` in a register of
length `1` does not make the mapping fail — the mapping succeeds and equals
the mapping of the same term with the out-of-range factor removed. -/
theorem claim3_counterexample :
    (∃ A, mapSingle (1 : ℚ) true demoSpinMats 1 1 [([(Axis.X, 5)], (1 : ℚ))] =
      Except.ok A) ∧
    mapSingle (1 : ℚ) true demoSpinMats 1 1 [([(Axis.X, 5)], (1 : ℚ))] =
      mapSingle (1 : ℚ) true demoSpinMats 1 1 [([], (1 : ℚ))] :=
  ⟨⟨smulMat 1 (eyeN ℚ 2), rfl⟩, rfl⟩

/-- C3 (amended): a factor whose site index lies outside
`[0, register_length)` is silently ignored rather than raising an error:
the mapping equals the mapping of the operator with all out-of-range
factors removed. -/
theorem claim3_amended_silently_ignored {R : Type} [CommRing R] (p : R)
    (u : Bool) (sm : SpinMats R) (twoS registerLength : ℕ)
    (terms : List (List (Axis × ℕ) × R)) :
    mapSingle p u sm twoS registerLength terms =
      mapSingle p u sm twoS registerLength
        (terms.map (fun tc =>
          (tc.1.filter (fun fa => fa.2 < registerLength), tc.2))) := by
  cases henc : logarithmicEncoding p u sm twoS with
  | error e => rw [mapSingle, mapSingle, henc]
  | ok enc =>
    rw [mapSingle_of_encoding henc, mapSingle_of_encoding henc]
    suffices hsuff : mapTermsList enc registerLength
        (terms.map (fun tc =>
          (tc.1.filter (fun fa => fa.2 < registerLength), tc.2))) =
        mapTermsList enc registerLength terms by
      rw [mapWithEncoding, mapWithEncoding, hsuff]
    induction terms with
    | nil => rfl
    | cons tc rest ih =>
      simp only [List.map_cons]
      rw [mapTermsList, mapTermsList, ih, mapTerm_filter enc registerLength tc]

/-- Counterexample to C4: mapping an operator with an empty term list fails
with the generic empty-reduction error (Python `TypeError` from
`functools.reduce` on an empty sequence), not with a dedicated
`EmptyOperator` signal, and it does not return a zero operator. -/
theorem claim4_counterexample :
    mapSingle (1 : ℚ) true demoSpinMats 1 1
      ([] : List (List (Axis × ℕ) × ℚ)) = Except.error MapErr.emptyReduce :=
  rfl

/-- C4 (amended): whenever the encoding step succeeds, mapping an empty
term list fails with the empty-reduction error inherited from
`reduce(operator.add, [])`; the code makes no explicit decision (no
`EmptyOperator` signal, no explicit zero operator). -/
theorem claim4_amended_empty_reduce {R : Type} [CommRing R] (p : R)
    (u : Bool) (sm : SpinMats R) (twoS registerLength : ℕ) (enc : Encoding R)
    (henc : logarithmicEncoding p u sm twoS = Except.ok enc) :
    mapSingle p u sm twoS registerLength
      ([] : List (List (Axis × ℕ) × R)) = Except.error MapErr.emptyReduce := by
  rw [mapSingle_of_encoding henc]
  rfl

/-- Witness for C4 (amended) at the spin-1/2 sample encoding. -/
theorem claim4_witness :
    logarithmicEncoding (1 : ℚ) true demoSpinMats 1 =
      Except.ok (sxHalf, syStandIn, szHalf, eyeN ℚ 2) ∧
    mapSingle (1 : ℚ) true demoSpinMats 1 3
      ([] : List (List (Axis × ℕ) × ℚ)) = Except.error MapErr.emptyReduce :=
  ⟨rfl, claim4_amended_empty_reduce (1 : ℚ) true demoSpinMats 1 3 _ rfl⟩

/-- C5: for spin `twoS / 2` with `d = 2S + 1 = twoS + 1`, the per-site
qubit count computed by the encoding is the least `n` with `d ≤ 2^n`
(i.e. `ceil(log2 d)`), and embedding a `d × d` matrix with that qubit
count yields a matrix of exact size `2^n × 2^n`. -/
theorem claim5_dimension {R : Type} [CommRing R] (p : R) (u : Bool)
    (twoS : ℕ) (M : SqMat R) (hM : M.dim = twoS + 1) :
    (twoS + 1 ≤ 2 ^ numQubits (twoS + 1)) ∧
    (∀ m : ℕ, twoS + 1 ≤ 2 ^ m → numQubits (twoS + 1) ≤ m) ∧
    ∃ E, embedMatrix p u M (numQubits (twoS + 1)) = Except.ok E ∧
      E.dim = 2 ^ numQubits (twoS + 1) := by
  refine ⟨le_pow_numQubits _, fun m hm => numQubits_min hm, ?_⟩
  exact embed_ok_of_le p u M _ (by rw [hM]; exact le_pow_numQubits _)

/-- Witness for C5 at spin 1 (`twoS = 2`, `d = 3`). -/
theorem claim5_witness :
    testMat3.dim = 2 + 1 ∧
    ((2 + 1 ≤ 2 ^ numQubits (2 + 1)) ∧
     (∀ m : ℕ, 2 + 1 ≤ 2 ^ m → numQubits (2 + 1) ≤ m) ∧
     ∃ E, embedMatrix (7 : ℚ) true testMat3 (numQubits (2 + 1)) =
        Except.ok E ∧ E.dim = 2 ^ numQubits (2 + 1)) :=
  ⟨rfl, claim5_dimension (7 : ℚ) true 2 testMat3 rfl⟩

/-- C6: when the matrix dimension already equals `2^n` (`diff == 0`),
embedding returns the matrix unchanged, for every padding and
`embed_upper` configuration. -/
theorem claim6_noop_embedding {R : Type} [CommRing R] (p : R) (u : Bool)
    (M : SqMat R) (n : ℕ) (h : M.dim = 2 ^ n) :
    embedMatrix p u M n = Except.ok M :=
  embed_of_dim_eq p u M n h

/-- Witness for C6 at the spin-1/2 Z matrix (`d = 2 = 2^1`). -/
theorem claim6_witness :
    szHalf.dim = 2 ^ 1 ∧ embedMatrix (5 : ℚ) false szHalf 1 = Except.ok szHalf :=
  ⟨rfl, claim6_noop_embedding (5 : ℚ) false szHalf 1 rfl⟩

/-- C7: when the matrix dimension exceeds `2^n` (`diff < 0`), embedding
fails with the invalid-dimension error and produces no result; with the
correctly computed qubit count `numQubits d` this branch is unreachable —
embedding always succeeds there. -/
theorem claim7_invalid_dimension {R : Type} [CommRing R] (p : R) (u : Bool)
    (M : SqMat R) (n : ℕ) (h : 2 ^ n < M.dim) :
    embedMatrix p u M n = Except.error MapErr.invalidDimension ∧
    ∀ (N : SqMat R) (q : R) (v : Bool),
      ∃ E, embedMatrix q v N (numQubits N.dim) = Except.ok E := by
  refine ⟨embed_error_of_gt p u M n h, ?_⟩
  intro N q v
  obtain ⟨E, hE, _⟩ :=
    embed_ok_of_le q v N (numQubits N.dim) (le_pow_numQubits N.dim)
  exact ⟨E, hE⟩

/-- Witness for C7: a `2 × 2` matrix does not fit into `2^0 = 1` state. -/
theorem claim7_witness :
    2 ^ 0 < szHalf.dim ∧
    (embedMatrix (1 : ℚ) true szHalf 0 = Except.error MapErr.invalidDimension ∧
     ∀ (N : SqMat ℚ) (q : ℚ) (v : Bool),
       ∃ E, embedMatrix q v N (numQubits N.dim) = Except.ok E) :=
  ⟨by decide, claim7_invalid_dimension (1 : ℚ) true szHalf 0 (by decide)⟩

/-- C8: the per-site operators are tensored from last site index to first
(site `register_length - 1` is the leftmost tensor factor): on two sites a
term touching only site `1` maps to `c · (χ_ax ⊗ Ĩ)`, on three sites a
term touching only site `2` maps to `c · ((χ_ax ⊗ Ĩ) ⊗ Ĩ)`, and at
spin 1/2 the two-site mapping evaluates to `c · (Z̃ ⊗ Ĩ)` with
`Z̃ = szHalf` and `Ĩ` the `2 × 2` identity. -/
theorem claim8_tensor_order {R : Type} [CommRing R] (enc : Encoding R)
    (c : R) (ax : Axis) :
    mapWithEncoding enc 2 [([(ax, 1)], c)] =
      Except.ok (smulMat c (kron (charMap enc ax) (encId enc))) ∧
    mapWithEncoding enc 3 [([(ax, 2)], c)] =
      Except.ok (smulMat c
        (kron (kron (charMap enc ax) (encId enc)) (encId enc))) ∧
    ∀ c2 : ℚ, mapSingle (1 : ℚ) true demoSpinMats 1 2 [([(Axis.Z, 1)], c2)] =
      Except.ok (smulMat c2 (kron szHalf (eyeN ℚ 2))) :=
  ⟨rfl, rfl, fun _ => rfl⟩

/-- Counterexample to C9: with `l1 = []`, mapping the concatenation
`l1 ++ l2` succeeds while mapping `l1` separately fails, so the claimed
equality cannot hold for every pair of term lists. -/
theorem claim9_counterexample :
    mapSingle (1 : ℚ) true demoSpinMats 1 1
        (([] : List (List (Axis × ℕ) × ℚ)) ++ [([], (1 : ℚ))]) =
      Except.ok (smulMat 1 (eyeN ℚ 2)) ∧
    mapSingle (1 : ℚ) true demoSpinMats 1 1
        ([] : List (List (Axis × ℕ) × ℚ)) = Except.error MapErr.emptyReduce :=
  ⟨rfl, rfl⟩

/-- C9 (amended): whenever both term lists map successfully (in particular
whenever both are nonempty and the encoding succeeds), mapping their
concatenation equals the sum of mapping each list separately. -/
theorem claim9_linearity {R : Type} [CommRing R] (p : R) (u : Bool)
    (sm : SpinMats R) (twoS registerLength : ℕ)
    (l1 l2 : List (List (Axis × ℕ) × R)) (A B : SqMat R)
    (h1 : mapSingle p u sm twoS registerLength l1 = Except.ok A)
    (h2 : mapSingle p u sm twoS registerLength l2 = Except.ok B) :
    mapSingle p u sm twoS registerLength (l1 ++ l2) =
      Except.ok (matAdd A B) := by
  cases henc : logarithmicEncoding p u sm twoS with
  | error e =>
    rw [mapSingle, henc] at h1
    exact Except.noConfusion h1
  | ok enc =>
    rw [mapSingle_of_encoding henc] at h1
    rw [mapSingle_of_encoding henc] at h2
    rw [mapSingle_of_encoding henc]
    rw [mapWithEncoding] at h1 h2
    cases hL1 : mapTermsList enc registerLength l1 with
    | error e => rw [hL1] at h1; exact Except.noConfusion h1
    | ok L1 =>
      rw [hL1] at h1
      cases hL2 : mapTermsList enc registerLength l2 with
      | error e => rw [hL2] at h2; exact Except.noConfusion h2
      | ok L2 =>
        rw [hL2] at h2
        rw [mapWithEncoding,
          mapTermsList_append enc registerLength l1 l2 L1 L2 hL1 hL2]
        exact reduceOp_matAdd_append h1 h2

/-- Witness for C9 (amended): two singleton scalar term lists. -/
theorem claim9_witness :
    mapSingle (1 : ℚ) true demoSpinMats 1 1 [([], (1 : ℚ))] =
      Except.ok (smulMat 1 (eyeN ℚ 2)) ∧
    mapSingle (1 : ℚ) true demoSpinMats 1 1
        ([([], (1 : ℚ))] ++ [([], (1 : ℚ))]) =
      Except.ok (matAdd (smulMat 1 (eyeN ℚ 2)) (smulMat 1 (eyeN ℚ 2))) :=
  ⟨rfl, claim9_linearity (1 : ℚ) true demoSpinMats 1 1 _ _ _ _ rfl rfl⟩

/-- C10: a term with an empty factor list and coefficient `c` maps, on a
register of positive length, to `c` times the tensor product of the
encoded identity over all sites; with the default padding `1` this equals
`c` times the exact identity on `numQubits d * register_length` qubits. -/
theorem claim10_scalar_term {R : Type} [CommRing R] (enc : Encoding R)
    (u : Bool) (sm : SpinMats R) (twoS registerLength : ℕ) (c : R)
    (hRL : 0 < registerLength)
    (h1 : (sm twoS).1.dim = twoS + 1) (h2 : (sm twoS).2.1.dim = twoS + 1)
    (h3 : (sm twoS).2.2.dim = twoS + 1) :
    (∃ T, reduceOp kron (List.replicate registerLength (encId enc)) =
        Except.ok T ∧
      mapWithEncoding enc registerLength [([], c)] =
        Except.ok (smulMat c T)) ∧
    mapSingle (1 : R) u sm twoS registerLength [([], c)] =
      Except.ok (smulMat c
        (eyeN R (2 ^ (numQubits (twoS + 1) * registerLength)))) := by
  obtain ⟨k, rfl⟩ : ∃ k, registerLength = k + 1 :=
    ⟨registerLength - 1, by omega⟩
  constructor
  · exact ⟨List.foldl kron (encId enc) (List.replicate k (encId enc)), rfl,
      mapWithEncoding_scalar enc k c⟩
  · have hd : twoS + 1 ≤ 2 ^ numQubits (twoS + 1) := le_pow_numQubits _
    obtain ⟨E1, hE1, _⟩ := embed_ok_of_le (1 : R) u (sm twoS).1
      (numQubits (twoS + 1)) (by rw [h1]; exact hd)
    obtain ⟨E2, hE2, _⟩ := embed_ok_of_le (1 : R) u (sm twoS).2.1
      (numQubits (twoS + 1)) (by rw [h2]; exact hd)
    obtain ⟨E3, hE3, _⟩ := embed_ok_of_le (1 : R) u (sm twoS).2.2
      (numQubits (twoS + 1)) (by rw [h3]; exact hd)
    have hI : embedMatrix (1 : R) u (eyeN R (twoS + 1))
        (numQubits (twoS + 1)) =
        Except.ok (eyeN R (2 ^ numQubits (twoS + 1))) :=
      embed_eye_one u (twoS + 1) (numQubits (twoS + 1)) hd
    have henc : logarithmicEncoding (1 : R) u sm twoS =
        Except.ok (E1, E2, E3, eyeN R (2 ^ numQubits (twoS + 1))) := by
      rw [logarithmicEncoding, hE1, hE2, hE3, hI]
    rw [mapSingle_of_encoding henc, mapWithEncoding_scalar]
    have hfold : List.foldl kron
        (encId (E1, E2, E3, eyeN R (2 ^ numQubits (twoS + 1))))
        (List.replicate k
          (encId (E1, E2, E3, eyeN R (2 ^ numQubits (twoS + 1))))) =
        eyeN R (2 ^ (numQubits (twoS + 1) * (k + 1))) := by
      show List.foldl kron (eyeN R (2 ^ numQubits (twoS + 1)))
          (List.replicate k (eyeN R (2 ^ numQubits (twoS + 1)))) = _
      rw [foldl_kron_replicate (2 ^ numQubits (twoS + 1)) k
        (2 ^ numQubits (twoS + 1))]
      have harith : 2 ^ numQubits (twoS + 1) *
          (2 ^ numQubits (twoS + 1)) ^ k =
          2 ^ (numQubits (twoS + 1) * (k + 1)) := by
        rw [pow_mul, pow_succ']
      rw [harith]
    rw [hfold]

/-- Witness for C10 at spin 1/2, two sites, coefficient 3. -/
theorem claim10_witness :
    0 < 2 ∧ (demoSpinMats 1).1.dim = 1 + 1 ∧
    (demoSpinMats 1).2.1.dim = 1 + 1 ∧ (demoSpinMats 1).2.2.dim = 1 + 1 ∧
    ((∃ T, reduceOp kron (List.replicate 2
        (encId (sxHalf, syStandIn, szHalf, eyeN ℚ 2))) = Except.ok T ∧
      mapWithEncoding (sxHalf, syStandIn, szHalf, eyeN ℚ 2) 2 [([], (3 : ℚ))] =
        Except.ok (smulMat 3 T)) ∧
     mapSingle (1 : ℚ) true demoSpinMats 1 2 [([], (3 : ℚ))] =
       Except.ok (smulMat 3 (eyeN ℚ (2 ^ (numQubits (1 + 1) * 2))))) :=
  ⟨by decide, rfl, rfl, rfl,
    claim10_scalar_term (sxHalf, syStandIn, szHalf, eyeN ℚ 2) true
      demoSpinMats 1 2 3 (by decide) rfl rfl rfl⟩

end LogMapper
